import Mathlib

/-!
Verification of the sampling-and-decision core of `led-screen-sync`.

The repository is a small Go program that periodically samples the screen,
computes a dominant color and pushes it to a lighting controller.  The pure
algorithmic core (quantization, histogram/frequency analysis, change
detection, downscale dimensions, the statistics-log append and the run/stop
state machine) is embedded below as executable Lean definitions, translated
from the Go source (`main.go` / config file of the current revision).

Modelling conventions:
* Go `uint8` channels are `Nat` together with an explicit `≤ 255` bound
  where a claim needs it; the Go expressions used here (`/`, `*`, `+` on
  channel values, e.g. `(c.R / step) * step`) never overflow `uint8` for
  inputs `< 256`, so plain `Nat` arithmetic agrees with the source.
* Go `float64` values (the squared color distance, the change threshold,
  percentages) are modelled as exact rationals `ℚ`.  Every number the
  program ever puts in these floats in the verified paths is either a small
  integer (squared distances are integers `≤ 195075`) or a configured
  literal, so `float64` arithmetic and comparison are exact there and agree
  with `ℚ`.
* Go maps are modelled as association lists built in first-insertion order;
  all proved properties (counts, maximality, sortedness, sums) are
  independent of the map's unspecified iteration order.
-/

/-- An 8-bit RGB pixel (Go: `type RGB struct { R, G, B uint8 }`).
Channels are modelled as `Nat`; 8-bit range is an explicit side condition
where a claim needs it. -/
structure RGB where
  R : Nat
  G : Nat
  B : Nat
deriving DecidableEq, Repr

/-- Go `quantizeRGB`: each channel becomes `(channel / step) * step` with
integer (floor) division.  Source:
`return RGB{ R: (c.R / step) * step, G: ..., B: ... }`. -/
def quantizeRGB (c : RGB) (step : Nat) : RGB where
  R := c.R / step * step
  G := c.G / step * step
  B := c.B / step * step

/-- Go `isBlackOrWhite`: near-black (all channels ≤ 16) or near-white
(all channels ≥ 240). -/
def isBlackOrWhite (c : RGB) : Bool :=
  (c.R ≤ 16 && c.G ≤ 16 && c.B ≤ 16) || (c.R ≥ 240 && c.G ≥ 240 && c.B ≥ 240)

/-- Go `colorDistance`: squared Euclidean distance
`(aR-bR)² + (aG-bG)² + (aB-bB)²`, computed on `int` differences and
returned through `float64`; the value is always a nonnegative integer, so
it is modelled as `Int`. -/
def colorDistance (a b : RGB) : Int :=
  let dr : Int := (a.R : Int) - (b.R : Int)
  let dg : Int := (a.G : Int) - (b.G : Int)
  let db : Int := (a.B : Int) - (b.B : Int)
  dr * dr + dg * dg + db * db

/-- Output dimensions of Go `downscale`: `w := bounds.Dx() / 10` and
`h := bounds.Dy() / 10`, each clamped up to `1` when it is `< 1`; the
resized image is allocated as `image.Rect(0, 0, w, h)` and the bilinear
scale (external library `draw.BiLinear.Scale`) fills its pixels without
changing its bounds. -/
def downscaleDims (w h : Nat) : Nat × Nat :=
  let w10 := w / 10
  let h10 := h / 10
  let w2 := if w10 < 1 then 1 else w10
  let h2 := if h10 < 1 then 1 else h10
  (w2, h2)

/-- The emission predicate of `colorUpdateLoop`
(`shouldCallHA` in the source): emit when there is no previously-emitted
color (`prevColor == nil`) or when the squared distance to it is `≥`
the threshold. -/
def shouldEmit (cur : RGB) (prev : Option RGB) (threshold : ℚ) : Bool :=
  match prev with
  | none => true
  | some p => decide (threshold ≤ ((colorDistance cur p : Int) : ℚ))

/-- The `env` block of the YAML configuration (Go `Config` struct in
`config.go`): base URL, bearer token, entity id, export toggles, change
threshold, update interval. -/
structure ConfigEnv where
  HA_URL : String
  HA_TOKEN : String
  LED_ENTITY : String
  EXPORT_JSON : Bool
  EXPORT_SCREENSHOT : Bool
  COLOR_CHANGE_THRESHOLD : ℚ
  UPDATE_INTERVAL_MS : Int
deriving DecidableEq

/-- The change threshold actually used by `colorUpdateLoop` each cycle.
The source assigns the literal `colorChangeThreshold := 32.0` inside the
loop and never reads `appConfig.Env.COLOR_CHANGE_THRESHOLD` there (the
configured field is only loaded and logged at startup), so the value is
the constant `32` for every configuration. -/
def colorUpdateLoopThreshold (_cfg : ConfigEnv) : ℚ := 32

/-- One cycle's emission decision and previously-emitted-color update from
`colorUpdateLoop`: with `token := appConfig.Env.HA_TOKEN`, if the token is
empty the Home Assistant call is skipped (and `prevColor` is unchanged);
otherwise if `shouldCallHA` the update is sent and `prevColor = &mostColor`;
otherwise nothing happens.  The threshold is the loop's hard-coded `32.0`
(see `colorUpdateLoopThreshold`). -/
def colorUpdateLoopEmit (cfg : ConfigEnv) (prev : Option RGB) (cur : RGB) :
    Bool × Option RGB :=
  let shouldCallHA := shouldEmit cur prev (colorUpdateLoopThreshold cfg)
  if cfg.HA_TOKEN = "" then (false, prev)
  else if shouldCallHA then (true, some cur)
  else (false, prev)

/-- A histogram over quantized colors: an association list from color to
count, in first-insertion order (a determinization of the Go
`map[RGB]int`; every property proved about it is independent of the map's
iteration order). -/
abbrev Hist := List (RGB × Nat)

/-- `countMap[color]++` on the association-list histogram: increment the
entry for `c`, or append a fresh entry with count 1. -/
def bumpColor : Hist → RGB → Hist
  | [], c => [(c, 1)]
  | (k, n) :: t, c => if k = c then (k, n + 1) :: t else (k, n) :: bumpColor t c

/-- Build the color histogram of a pixel list (the double loop
`countMap[color]++` over all pixels, on already-quantized colors). -/
def histogram (pixels : List RGB) : Hist :=
  pixels.foldl bumpColor []

/-- The quantized pixels of a frame: every pixel quantized with the loop's
step 16 (`quantStep := uint8(16)`). -/
def quantPixels (img : List RGB) : List RGB :=
  img.map (fun c => quantizeRGB c 16)

/-- The quantized pixels that survive the near-black/near-white filter of
`mostFrequentColor` (`if isBlackOrWhite(color) { continue }`). -/
def keptPixels (img : List RGB) : List RGB :=
  (quantPixels img).filter (fun c => !(isBlackOrWhite c))

/-- The body of the max-count scan of `mostFrequentColor`, with the running
best (`mostColor`, `maxCount`) made explicit: an entry replaces the current
best only on strictly greater count (`if cnt > maxCount`). -/
def maxScan (acc : RGB × Nat) : Hist → RGB × Nat
  | [] => acc
  | kv :: t => maxScan (if kv.2 > acc.2 then kv else acc) t

/-- The max-count scan of `mostFrequentColor`: `maxCount` starts at 0 and
`mostColor` at the zero value of `RGB`. -/
def maxColor (h : Hist) : RGB × Nat :=
  maxScan (⟨0, 0, 0⟩, 0) h

/-- Go `mostFrequentColor`: histogram of quantized pixels skipping
near-black/near-white buckets; if that leaves the map empty, rebuild the
histogram over all quantized pixels; return the highest-count entry. -/
def mostFrequentColor (img : List RGB) : RGB :=
  let countMap := histogram (keptPixels img)
  let countMap2 := if countMap.isEmpty then histogram (quantPixels img) else countMap
  (maxColor countMap2).1

/-- Descending insertion by count: a determinization of Go's
`sort.Slice(sorted, func(i, j int) bool { return sorted[i].Count > sorted[j].Count })`
(the Go sort is unstable and ties are unspecified; everything proved below
is order-robust). -/
def insertByCount (kv : RGB × Nat) : Hist → Hist
  | [] => [kv]
  | hd :: t => if kv.2 > hd.2 then kv :: hd :: t else hd :: insertByCount kv t

/-- Sort a histogram by count, descending. -/
def sortByCountDesc (h : Hist) : Hist :=
  h.foldr insertByCount []

/-- Go `topColors`: full (unfiltered) histogram of the quantized pixels,
sorted descending by count, truncated to `topN`
(`if len(sorted) > topN { sorted = sorted[:topN] }`). -/
def topColors (img : List RGB) (topN : Nat) : Hist :=
  (sortByCountDesc (histogram (quantPixels img))).take topN

/-- One per-color record of a statistics-log entry (Go `ColorStat`):
channel values, human-readable name, percentage of total pixels.  The
`float64` percentage is modelled as an exact rational. -/
structure ColorStat where
  R : Nat
  G : Nat
  B : Nat
  Name : String
  Percent : ℚ
deriving DecidableEq

/-- One statistics-log record (Go `LogEntry`): RFC3339 timestamp string,
`WxH` screen-size string, and the list of top-color stats. -/
structure LogEntry where
  Timestamp : String
  ScreenSize : String
  TopColors : List ColorStat
deriving DecidableEq

/-- The newline separator the legacy recovery splits on
(Go: a split of the file bytes on the byte 0x0A). -/
def newlineSep : String :=
  "\n"

/-- The empty file contents (Go: a zero-length read). -/
def emptyData : String :=
  ""

/-- The prior entries `logTopColorsJSON` recovers from the existing file
before appending.  `file` is `none` when `os.ReadFile` fails (absent file)
and `some data` otherwise; `parseArray` abstracts
`json.Unmarshal(data, &entries)` into `[]LogEntry`, and `parseLine`
abstracts `json.Unmarshal(line, &e)` into a single `LogEntry`.  Source
control flow: entries stay empty unless the read succeeded with nonempty
data; a successful array parse wins; otherwise the data is split on
newlines, blank lines (`len(bytes.TrimSpace(line)) == 0`) are skipped and
every line that parses as a `LogEntry` is kept in order, the rest are
discarded silently. -/
def readLogEntries (parseArray : String → Option (List LogEntry))
    (parseLine : String → Option LogEntry) (file : Option String) :
    List LogEntry :=
  match file with
  | none => []
  | some data =>
    if data.length = 0 then []
    else
      match parseArray data with
      | some es => es
      | none =>
        (((data.splitOn newlineSep).filter
          (fun line => !(line.trim.length = 0))).filterMap parseLine)

/-- The full list `logTopColorsJSON` writes back (truncate-and-rewrite,
indented, then `f.Sync()`): the recovered prior entries with the new entry
appended last (`entries = append(entries, logEntry)`).  The JSON
serialization itself (an external `encoding/json` call) is abstracted: the
written file is the array encoding of exactly this list. -/
def logTopColorsJSONEntries (parseArray : String → Option (List LogEntry))
    (parseLine : String → Option LogEntry) (file : Option String)
    (logEntry : LogEntry) : List LogEntry :=
  readLogEntries parseArray parseLine file ++ [logEntry]

/-- The run-state data of the tray control loop in `onReady`: the global
`running` flag, plus (for the verification of the single-loop invariant)
the number of `colorUpdateLoop` goroutine instances currently active. -/
structure SyncState where
  running : Bool
  activeLoops : Nat
deriving DecidableEq

/-- The control stimuli handled by `onReady`'s select loop that touch the
run state: the Start and Stop menu clicks.  (Turn On / Turn Off only fire
a one-shot HTTP call and Quit terminates the process; none of them reads
or writes `running` or spawns a sampling loop.) -/
inductive TrayEvent where
  | start
  | stop
deriving DecidableEq

/-- One step of the tray control loop (Go `onReady`, select cases for
`mStart.ClickedCh` and `mStop.ClickedCh`):
* Start: only `if !running` does it set `running = true` and spawn
  `go colorUpdateLoop()`; when already running the click does nothing.
* Stop: only `if running` does it set `running = false` and hand the loop
  a value on the unbuffered `quitChan`; that send blocks the control loop
  until the sampling loop has received it at its wait point and committed
  to return, so the stop step is modelled atomically as also retiring the
  active loop instance. -/
def trayStep (s : SyncState) : TrayEvent → SyncState
  | .start => if s.running then s else { running := true, activeLoops := s.activeLoops + 1 }
  | .stop => if s.running then { running := false, activeLoops := s.activeLoops - 1 } else s

/-- The initial run state: `running = false` and no sampling loop. -/
def initialSyncState : SyncState :=
  { running := false, activeLoops := 0 }

/-- The run state after a sequence of tray events from startup. -/
def trayRun (evs : List TrayEvent) : SyncState :=
  evs.foldl trayStep initialSyncState

/-- The keys of a histogram, in insertion order. -/
def histKeys (h : Hist) : List RGB :=
  h.map Prod.fst

/-- Total count a histogram assigns to a color (sums over duplicate keys;
on histograms built by `histogram` the keys are distinct, so this is the
color's unique entry). -/
def histCount : Hist → RGB → Nat
  | [], _ => 0
  | (k, n) :: t, c => if k = c then n + histCount t c else histCount t c

/-- A concrete configuration with the scenario threshold 32.0 and a
nonempty bearer token, used to evaluate the change-detection scenario. -/
def cfgScenario : ConfigEnv :=
  { HA_URL := "http://192.168.1.124:8123"
    HA_TOKEN := "secret-token"
    LED_ENTITY := "light.ldvsmart_indflex2m"
    EXPORT_JSON := false
    EXPORT_SCREENSHOT := false
    COLOR_CHANGE_THRESHOLD := 32
    UPDATE_INTERVAL_MS := 100 }

/-- A concrete configuration whose configured change threshold (1024)
differs from the loop's hard-coded 32.0, exhibiting that the loop ignores
the configured value. -/
def cfgThreshold1024 : ConfigEnv :=
  { cfgScenario with COLOR_CHANGE_THRESHOLD := 1024 }

/-- A sample legacy (newline-delimited era) statistics-log entry. -/
def legacyEntryExample : LogEntry :=
  { Timestamp := "2024-01-01T00:00:00Z", ScreenSize := "10x10", TopColors := [] }

/-- A sample new statistics-log entry to append. -/
def newEntryExample : LogEntry :=
  { Timestamp := "2024-01-02T00:00:00Z", ScreenSize := "10x10", TopColors := [] }

/-- A stand-in for `json.Unmarshal` into `[]LogEntry` on a file that is not
a well-formed JSON array: it always fails. -/
def parseArrayAlwaysFails : String → Option (List LogEntry) :=
  fun _ => none

/-- A stand-in for the per-line `json.Unmarshal` into `LogEntry`: exactly
the line "legacy" parses (to `legacyEntryExample`), every other line is
unparseable. -/
def parseLineExample : String → Option LogEntry :=
  fun s => if s = "legacy" then some legacyEntryExample else none

/-- Sample legacy file contents: two parseable lines, one unparseable line
and one blank line. -/
def legacyFileData : String :=
  "legacy\nnot-json\n\nlegacy"

/-! ### Histogram lemmas -/

theorem bumpColor_ne_nil (h : Hist) (c : RGB) : bumpColor h c ≠ [] := by
  cases h with
  | nil => simp [bumpColor]
  | cons hd t =>
    obtain ⟨k, n⟩ := hd
    simp only [bumpColor]
    split <;> simp

theorem histCount_bumpColor (h : Hist) (c d : RGB) :
    histCount (bumpColor h c) d = histCount h d + (if c = d then 1 else 0) := by
  induction h with
  | nil =>
    simp only [bumpColor, histCount]
    split <;> simp
  | cons hd t ih =>
    obtain ⟨k, n⟩ := hd
    simp only [bumpColor]
    by_cases hk : k = c
    · rw [if_pos hk]
      by_cases hkd : k = d
      · have hcd : c = d := hk.symm.trans hkd
        simp only [histCount, if_pos hkd, if_pos hcd]
        omega
      · have hcd : ¬ c = d := fun hcd => hkd (hk.trans hcd)
        simp only [histCount, if_neg hkd, if_neg hcd]
        omega
    · rw [if_neg hk]
      by_cases hkd : k = d
      · simp only [histCount, if_pos hkd, ih]
        omega
      · simp only [histCount, if_neg hkd, ih]

theorem histCount_foldl (l : List RGB) (acc : Hist) (c : RGB) :
    histCount (l.foldl bumpColor acc) c = histCount acc c + l.count c := by
  induction l generalizing acc with
  | nil => simp
  | cons p t ih =>
    simp only [List.foldl_cons, ih, histCount_bumpColor, List.count_cons]
    by_cases hpc : p = c
    · simp [hpc]; omega
    · simp [hpc, Ne.symm hpc]

theorem histCount_histogram (l : List RGB) (c : RGB) :
    histCount (histogram l) c = l.count c := by
  simpa [histCount] using histCount_foldl l [] c

theorem histKeys_bumpColor (h : Hist) (c : RGB) :
    histKeys (bumpColor h c) =
      if c ∈ histKeys h then histKeys h else histKeys h ++ [c] := by
  induction h with
  | nil => simp [bumpColor, histKeys]
  | cons hd t ih =>
    obtain ⟨k, n⟩ := hd
    simp only [bumpColor, histKeys, List.map_cons] at ih ⊢
    by_cases hk : k = c
    · rw [if_pos hk, if_pos (by simp [hk])]
      simp
    · rw [if_neg hk]
      by_cases hm : c ∈ List.map Prod.fst t
      · rw [if_pos (List.mem_cons_of_mem _ hm)]
        simp [ih, hm]
      · have hck : ¬ c ∈ k :: List.map Prod.fst t := by
          simp only [List.mem_cons, not_or]
          exact ⟨fun h => hk h.symm, hm⟩
        rw [if_neg hck]
        simp [ih, hm]

theorem nodup_histKeys_bumpColor (h : Hist) (c : RGB)
    (hn : (histKeys h).Nodup) : (histKeys (bumpColor h c)).Nodup := by
  rw [histKeys_bumpColor]
  split
  · exact hn
  · rename_i hc
    simp [List.nodup_append, hn, hc]

theorem nodup_histKeys_histogram (l : List RGB) :
    (histKeys (histogram l)).Nodup := by
  suffices h : ∀ acc : Hist, (histKeys acc).Nodup →
      (histKeys (l.foldl bumpColor acc)).Nodup by
    exact h [] (by simp [histKeys])
  induction l with
  | nil => intro acc hacc; simpa using hacc
  | cons p t ih =>
    intro acc hacc
    exact ih _ (nodup_histKeys_bumpColor _ _ hacc)

theorem one_le_counts_bumpColor (h : Hist) (c : RGB)
    (hp : ∀ kv ∈ h, 1 ≤ kv.2) : ∀ kv ∈ bumpColor h c, 1 ≤ kv.2 := by
  induction h with
  | nil =>
    intro kv hkv
    simp [bumpColor] at hkv
    simp [hkv]
  | cons hd t ih =>
    obtain ⟨k, n⟩ := hd
    intro kv hkv
    simp only [bumpColor] at hkv
    split at hkv
    · rcases List.mem_cons.1 hkv with h1 | h1
      · have hn := hp (k, n) (by simp)
        rw [h1]
        exact Nat.le_succ_of_le hn
      · exact hp kv (List.mem_cons_of_mem _ h1)
    · rcases List.mem_cons.1 hkv with h1 | h1
      · exact h1 ▸ hp (k, n) (by simp)
      · exact ih (fun kv h => hp kv (List.mem_cons_of_mem _ h)) kv h1

theorem one_le_counts_histogram (l : List RGB) :
    ∀ kv ∈ histogram l, 1 ≤ kv.2 := by
  suffices h : ∀ acc : Hist, (∀ kv ∈ acc, 1 ≤ kv.2) →
      ∀ kv ∈ l.foldl bumpColor acc, 1 ≤ kv.2 by
    exact h [] (by simp)
  induction l with
  | nil => intro acc hacc; simpa using hacc
  | cons p t ih =>
    intro acc hacc
    exact ih _ (one_le_counts_bumpColor _ _ hacc)

theorem histogram_ne_nil {l : List RGB} (hl : l ≠ []) : histogram l ≠ [] := by
  cases l with
  | nil => exact absurd rfl hl
  | cons p t =>
    suffices h : ∀ (u : List RGB) (acc : Hist), acc ≠ [] →
        u.foldl bumpColor acc ≠ [] by
      simpa [histogram] using h t (bumpColor [] p) (bumpColor_ne_nil [] p)
    intro u
    induction u with
    | nil => intro acc hacc; simpa using hacc
    | cons q s ih => intro acc hacc; exact ih _ (bumpColor_ne_nil acc q)

theorem mem_histKeys_of_mem {h : Hist} {kv : RGB × Nat} (hm : kv ∈ h) :
    kv.1 ∈ histKeys h :=
  List.mem_map_of_mem Prod.fst hm

theorem histCount_eq_zero_of_not_mem (h : Hist) (c : RGB)
    (hc : c ∉ histKeys h) : histCount h c = 0 := by
  induction h with
  | nil => rfl
  | cons hd t ih =>
    obtain ⟨k, n⟩ := hd
    simp only [histKeys, List.map_cons, List.mem_cons, not_or] at hc
    simp only [histCount, if_neg (fun hkc : k = c => hc.1 hkc.symm)]
    exact ih (by simpa [histKeys] using hc.2)

theorem histCount_of_mem (h : Hist) (hn : (histKeys h).Nodup)
    {k : RGB} {n : Nat} (hm : (k, n) ∈ h) : histCount h k = n := by
  induction h with
  | nil => cases hm
  | cons hd t ih =>
    obtain ⟨a, m⟩ := hd
    simp only [histKeys, List.map_cons, List.nodup_cons] at hn
    rcases List.mem_cons.1 hm with h1 | h1
    · injection h1 with h1a h1b
      have hak : a = k := h1a.symm
      have hkt : k ∉ histKeys t := by
        intro hkt
        exact hn.1 (by simpa [histKeys, hak] using hkt)
      simp only [histCount, if_pos hak]
      rw [histCount_eq_zero_of_not_mem t k hkt]
      omega
    · have hak : ¬ a = k := by
        intro hak
        exact (hak ▸ hn.1) (by simpa [histKeys] using mem_histKeys_of_mem h1)
      simp only [histCount, if_neg hak]
      exact ih (by simpa [histKeys] using hn.2) h1

theorem entry_of_mem_histKeys (h : Hist) (hn : (histKeys h).Nodup)
    {k : RGB} (hk : k ∈ histKeys h) : (k, histCount h k) ∈ h := by
  induction h with
  | nil => simp [histKeys] at hk
  | cons hd t ih =>
    obtain ⟨a, m⟩ := hd
    simp only [histKeys, List.map_cons, List.nodup_cons] at hn
    simp only [histKeys, List.map_cons, List.mem_cons] at hk
    by_cases hak : a = k
    · have ht0 : histCount t k = 0 :=
        histCount_eq_zero_of_not_mem t k (hak ▸ fun hmem => hn.1 (by simpa [histKeys] using hmem))
      simp only [histCount, if_pos hak, ht0]
      simp [hak]
    · rcases hk with h1 | h1
      · exact absurd h1.symm hak
      · simp only [histCount, if_neg hak]
        exact List.mem_cons_of_mem _ (ih (by simpa [histKeys] using hn.2) (by simpa [histKeys] using h1))

theorem mem_histKeys_histogram (l : List RGB) (c : RGB) :
    c ∈ histKeys (histogram l) ↔ c ∈ l := by
  constructor
  · intro h
    have hentry := entry_of_mem_histKeys _ (nodup_histKeys_histogram l) h
    have hpos := one_le_counts_histogram l _ hentry
    have : 1 ≤ l.count c := by
      simpa [histCount_histogram] using hpos
    exact List.count_pos_iff.1 (by omega)
  · intro h
    by_contra hc
    have h0 : histCount (histogram l) c = 0 :=
      histCount_eq_zero_of_not_mem _ _ hc
    rw [histCount_histogram] at h0
    have : 1 ≤ l.count c := List.count_pos_iff.2 h
    omega

theorem maxScan_spec (h : Hist) (acc : RGB × Nat) :
    (maxScan acc h = acc ∨ maxScan acc h ∈ h) ∧ acc.2 ≤ (maxScan acc h).2 ∧
      ∀ kv ∈ h, kv.2 ≤ (maxScan acc h).2 := by
  induction h generalizing acc with
  | nil => simp [maxScan]
  | cons kv t ih =>
    simp only [maxScan]
    obtain ⟨ih1, ih2, ih3⟩ := ih (if kv.2 > acc.2 then kv else acc)
    refine ⟨?_, ?_, ?_⟩
    · rcases ih1 with h1 | h1
      · rw [h1]
        split
        · exact Or.inr (List.mem_cons_self _ _)
        · exact Or.inl rfl
      · exact Or.inr (List.mem_cons_of_mem _ h1)
    · have hle : acc.2 ≤ (if kv.2 > acc.2 then kv else acc).2 := by
        by_cases hgt : kv.2 > acc.2
        · rw [if_pos hgt]
          omega
        · rw [if_neg hgt]
      exact le_trans hle ih2
    · intro kv2 hkv2
      rcases List.mem_cons.1 hkv2 with h1 | h1
      · have hle : kv2.2 ≤ (if kv.2 > acc.2 then kv else acc).2 := by
          rw [h1]
          by_cases hgt : kv.2 > acc.2
          · rw [if_pos hgt]
          · rw [if_neg hgt]
            omega
        exact le_trans hle ih2
      · exact ih3 kv2 h1

theorem maxColor_spec (h : Hist) (hne : h ≠ []) (hp : ∀ kv ∈ h, 1 ≤ kv.2) :
    maxColor h ∈ h ∧ ∀ kv ∈ h, kv.2 ≤ (maxColor h).2 := by
  obtain ⟨h1, _h2, h3⟩ := maxScan_spec h (⟨0, 0, 0⟩, 0)
  rcases h1 with heq | hmem
  · exfalso
    obtain ⟨kv, hkv⟩ := List.exists_mem_of_ne_nil h hne
    have hle := h3 kv hkv
    have hone := hp kv hkv
    rw [heq] at hle
    simp at hle
    omega
  · exact ⟨hmem, h3⟩

theorem maxColor_histogram_spec (l : List RGB) (hl : l ≠ []) :
    (maxColor (histogram l)).1 ∈ l ∧
      ∀ c ∈ l, l.count c ≤ l.count (maxColor (histogram l)).1 := by
  have hne : histogram l ≠ [] := histogram_ne_nil hl
  have hp := one_le_counts_histogram l
  obtain ⟨hmem, hmax⟩ := maxColor_spec _ hne hp
  have hcnt : histCount (histogram l) (maxColor (histogram l)).1 = (maxColor (histogram l)).2 :=
    histCount_of_mem _ (nodup_histKeys_histogram l) (by simpa using hmem)
  have hkey : (maxColor (histogram l)).1 ∈ l := by
    rw [← mem_histKeys_histogram]
    exact mem_histKeys_of_mem hmem
  refine ⟨hkey, ?_⟩
  intro c hc
  have hck : c ∈ histKeys (histogram l) := (mem_histKeys_histogram l c).2 hc
  have hentry := entry_of_mem_histKeys _ (nodup_histKeys_histogram l) hck
  have := hmax _ hentry
  calc l.count c = histCount (histogram l) c := (histCount_histogram l c).symm
    _ ≤ (maxColor (histogram l)).2 := this
    _ = histCount (histogram l) (maxColor (histogram l)).1 := hcnt.symm
    _ = l.count (maxColor (histogram l)).1 := histCount_histogram l _

/-! ### Count-sum lemmas -/

theorem countSum_bumpColor (h : Hist) (c : RGB) :
    ((bumpColor h c).map Prod.snd).sum = (h.map Prod.snd).sum + 1 := by
  induction h with
  | nil => simp [bumpColor]
  | cons hd t ih =>
    obtain ⟨k, n⟩ := hd
    simp only [bumpColor]
    by_cases hk : k = c
    · rw [if_pos hk]
      simp
      omega
    · rw [if_neg hk]
      simp [ih]
      omega

theorem countSum_histogram (l : List RGB) :
    ((histogram l).map Prod.snd).sum = l.length := by
  suffices h : ∀ acc : Hist, ((l.foldl bumpColor acc).map Prod.snd).sum =
      (acc.map Prod.snd).sum + l.length by
    simpa using h []
  induction l with
  | nil => intro acc; simp
  | cons p t ih =>
    intro acc
    simp only [List.foldl_cons, ih, countSum_bumpColor, List.length_cons]
    omega

/-! ### Sorting lemmas -/

theorem insertByCount_perm (kv : RGB × Nat) (h : Hist) :
    List.Perm (insertByCount kv h) (kv :: h) := by
  induction h with
  | nil => simp [insertByCount]
  | cons hd t ih =>
    simp only [insertByCount]
    by_cases hgt : kv.2 > hd.2
    · rw [if_pos hgt]
    · rw [if_neg hgt]
      exact List.Perm.trans (List.Perm.cons hd ih) (List.Perm.swap kv hd t)

theorem sortByCountDesc_perm (h : Hist) : List.Perm (sortByCountDesc h) h := by
  induction h with
  | nil => simp [sortByCountDesc]
  | cons hd t ih =>
    simp only [sortByCountDesc, List.foldr_cons]
    exact (insertByCount_perm hd _).trans (List.Perm.cons hd ih)

theorem pairwise_insertByCount (kv : RGB × Nat) (h : Hist)
    (hp : h.Pairwise (fun a b : RGB × Nat => b.2 ≤ a.2)) :
    (insertByCount kv h).Pairwise (fun a b : RGB × Nat => b.2 ≤ a.2) := by
  induction h with
  | nil => simp [insertByCount]
  | cons hd t ih =>
    obtain ⟨hhd, ht⟩ := List.pairwise_cons.1 hp
    simp only [insertByCount]
    by_cases hgt : kv.2 > hd.2
    · rw [if_pos hgt]
      refine List.pairwise_cons.2 ⟨?_, hp⟩
      intro x hx
      rcases List.mem_cons.1 hx with h1 | h1
      · rw [h1]
        omega
      · have := hhd x h1
        omega
    · rw [if_neg hgt]
      refine List.pairwise_cons.2 ⟨?_, ih ht⟩
      intro x hx
      have hx2 := (insertByCount_perm kv t).mem_iff.1 hx
      rcases List.mem_cons.1 hx2 with h1 | h1
      · rw [h1]
        omega
      · exact hhd x h1

theorem pairwise_sortByCountDesc (h : Hist) :
    (sortByCountDesc h).Pairwise (fun a b : RGB × Nat => b.2 ≤ a.2) := by
  induction h with
  | nil => simp [sortByCountDesc]
  | cons hd t ih =>
    simp only [sortByCountDesc, List.foldr_cons]
    exact pairwise_insertByCount hd _ ih

theorem sublist_sum_le (l₁ l₂ : List Nat) (h : l₁.Sublist l₂) :
    l₁.sum ≤ l₂.sum := by
  induction h with
  | slnil => simp
  | cons a h ih =>
    simp only [List.sum_cons]
    omega
  | cons₂ a h ih =>
    simp only [List.sum_cons]
    omega

/-! ### Claim theorems -/

/-- C8: for every 8-bit RGB pixel, each channel of `quantizeRGB p 16` is
`(channel / 16) * 16` under integer floor division, hence divisible by 16,
at most the corresponding input channel, and in `[0, 240]`. -/
theorem quantizeRGB_spec (c : RGB) (hR : c.R ≤ 255) (hG : c.G ≤ 255)
    (hB : c.B ≤ 255) :
    quantizeRGB c 16 = ⟨c.R / 16 * 16, c.G / 16 * 16, c.B / 16 * 16⟩ ∧
    16 ∣ (quantizeRGB c 16).R ∧ 16 ∣ (quantizeRGB c 16).G ∧
      16 ∣ (quantizeRGB c 16).B ∧
    (quantizeRGB c 16).R ≤ c.R ∧ (quantizeRGB c 16).G ≤ c.G ∧
      (quantizeRGB c 16).B ≤ c.B ∧
    (quantizeRGB c 16).R ≤ 240 ∧ (quantizeRGB c 16).G ≤ 240 ∧
      (quantizeRGB c 16).B ≤ 240 := by
  refine ⟨rfl, ?_⟩
  simp only [quantizeRGB]
  omega

/-- Witness for C8 at the repository's own test pixel (123, 234, 56). -/
theorem quantizeRGB_spec_witness :
    ((123 : Nat) ≤ 255 ∧ (234 : Nat) ≤ 255 ∧ (56 : Nat) ≤ 255) ∧
      (quantizeRGB ⟨123, 234, 56⟩ 16 =
          ⟨123 / 16 * 16, 234 / 16 * 16, 56 / 16 * 16⟩ ∧
        16 ∣ (quantizeRGB ⟨123, 234, 56⟩ 16).R ∧
          16 ∣ (quantizeRGB ⟨123, 234, 56⟩ 16).G ∧
          16 ∣ (quantizeRGB ⟨123, 234, 56⟩ 16).B ∧
        (quantizeRGB ⟨123, 234, 56⟩ 16).R ≤ 123 ∧
          (quantizeRGB ⟨123, 234, 56⟩ 16).G ≤ 234 ∧
          (quantizeRGB ⟨123, 234, 56⟩ 16).B ≤ 56 ∧
        (quantizeRGB ⟨123, 234, 56⟩ 16).R ≤ 240 ∧
          (quantizeRGB ⟨123, 234, 56⟩ 16).G ≤ 240 ∧
          (quantizeRGB ⟨123, 234, 56⟩ 16).B ≤ 240) :=
  ⟨⟨by decide, by decide, by decide⟩,
    quantizeRGB_spec ⟨123, 234, 56⟩ (by decide) (by decide) (by decide)⟩

/-- C7: for every input of width ≥ 1 and height ≥ 1, the output dimensions
of `downscale` are exactly `(max 1 (w / 10), max 1 (h / 10))`, so the
result is never zero-sized; in particular 100×100 yields 10×10 and 5×5
yields 1×1. -/
theorem downscale_dims_spec (w h : Nat) (_hw : 1 ≤ w) (_hh : 1 ≤ h) :
    downscaleDims w h = (max 1 (w / 10), max 1 (h / 10)) ∧
    1 ≤ (downscaleDims w h).1 ∧ 1 ≤ (downscaleDims w h).2 := by
  simp only [downscaleDims, Prod.mk.injEq]
  refine ⟨⟨?_, ?_⟩, ?_, ?_⟩ <;> split_ifs <;> omega

/-- Witness for C7 at the spec's two sample sizes: 100×100 → 10×10 and
5×5 → 1×1. -/
theorem downscale_dims_spec_witness :
    ((1 ≤ 100 ∧ 1 ≤ 100) ∧
      downscaleDims 100 100 = (max 1 (100 / 10), max 1 (100 / 10)) ∧
        1 ≤ (downscaleDims 100 100).1 ∧ 1 ≤ (downscaleDims 100 100).2) ∧
    ((1 ≤ 5 ∧ 1 ≤ 5) ∧
      downscaleDims 5 5 = (max 1 (5 / 10), max 1 (5 / 10)) ∧
        1 ≤ (downscaleDims 5 5).1 ∧ 1 ≤ (downscaleDims 5 5).2) :=
  ⟨⟨⟨by decide, by decide⟩, downscale_dims_spec 100 100 (by decide) (by decide)⟩,
    ⟨⟨by decide, by decide⟩, downscale_dims_spec 5 5 (by decide) (by decide)⟩⟩

/-- C5: the emission predicate is true exactly when the previous color is
absent or the squared distance reaches the threshold; the first cycle
(no previous color) always emits, and an identical color with a positive
threshold does not emit. -/
theorem shouldEmit_spec (cur p : RGB) (t : ℚ) (ht : 0 < t) :
    shouldEmit cur none t = true ∧
    (shouldEmit cur (some p) t = true ↔ t ≤ ((colorDistance cur p : Int) : ℚ)) ∧
    shouldEmit cur (some cur) t = false := by
  refine ⟨rfl, ?_, ?_⟩
  · simp [shouldEmit]
  · have hz : colorDistance cur cur = 0 := by
      simp [colorDistance]
    simp only [shouldEmit, hz, Int.cast_zero, decide_eq_false_iff_not, not_le]
    exact ht

/-- Witness for C5 at current color (1,2,3), previous (0,0,0),
threshold 32. -/
theorem shouldEmit_spec_witness :
    ((0 : ℚ) < 32) ∧
      (shouldEmit ⟨1, 2, 3⟩ none 32 = true ∧
        (shouldEmit ⟨1, 2, 3⟩ (some ⟨0, 0, 0⟩) 32 = true ↔
          (32 : ℚ) ≤ ((colorDistance ⟨1, 2, 3⟩ ⟨0, 0, 0⟩ : Int) : ℚ)) ∧
        shouldEmit ⟨1, 2, 3⟩ (some ⟨1, 2, 3⟩) 32 = false) :=
  ⟨by norm_num, shouldEmit_spec ⟨1, 2, 3⟩ ⟨0, 0, 0⟩ 32 (by norm_num)⟩

/-- C9: in the tray control loop, a start click while already running is a
no-op (no second sampling loop is spawned), and in every state reachable
from startup the number of active sampling-loop instances equals 1 when
running and 0 when idle — in particular it never exceeds 1. -/
theorem onReady_single_loop (s : SyncState) (evs : List TrayEvent)
    (hrun : s.running = true) :
    trayStep s TrayEvent.start = s ∧
    (trayRun evs).activeLoops = (if (trayRun evs).running then 1 else 0) ∧
    (trayRun evs).activeLoops ≤ 1 := by
  have hstep : ∀ st : SyncState, st.activeLoops = (if st.running then 1 else 0) →
      ∀ e, (trayStep st e).activeLoops =
        (if (trayStep st e).running then 1 else 0) := by
    intro st hst e
    cases e <;> by_cases hr : st.running = true <;>
      simp only [trayStep] <;> simp [hr] at hst ⊢ <;> omega
  have hinv : (trayRun evs).activeLoops =
      (if (trayRun evs).running then 1 else 0) := by
    have hgen : ∀ (l : List TrayEvent) (st : SyncState),
        st.activeLoops = (if st.running then 1 else 0) →
        (l.foldl trayStep st).activeLoops =
          (if (l.foldl trayStep st).running then 1 else 0) := by
      intro l
      induction l with
      | nil => intro st hst; simpa using hst
      | cons e rest ih => intro st hst; exact ih _ (hstep st hst e)
    exact hgen evs initialSyncState (by simp [initialSyncState])
  refine ⟨?_, hinv, ?_⟩
  · simp [trayStep, hrun]
  · rw [hinv]
    split <;> omega

/-- Witness for C9: a running state with one active loop absorbs a start
click, and a concrete click sequence keeps at most one loop. -/
theorem onReady_single_loop_witness :
    ((⟨true, 1⟩ : SyncState).running = true) ∧
      (trayStep ⟨true, 1⟩ TrayEvent.start = ⟨true, 1⟩ ∧
        (trayRun [TrayEvent.start, TrayEvent.start, TrayEvent.stop]).activeLoops =
          (if (trayRun [TrayEvent.start, TrayEvent.start, TrayEvent.stop]).running
            then 1 else 0) ∧
        (trayRun [TrayEvent.start, TrayEvent.start, TrayEvent.stop]).activeLoops ≤ 1) :=
  ⟨rfl, onReady_single_loop ⟨true, 1⟩
    [TrayEvent.start, TrayEvent.start, TrayEvent.stop] rfl⟩

/-- C1 counterexample: with the scenario configuration (threshold 32.0,
token set) and previous emitted color (0,0,0), a new dominant color
(10,10,10) gives squared distance 300, and since the loop compares the
squared distance directly against 32.0 (not against 32² = 1024), the cycle
DOES emit and updates the previous color — the claim's "does not emit" is
false on the code. -/
theorem colorUpdateLoop_small_change_emits :
    colorDistance ⟨10, 10, 10⟩ ⟨0, 0, 0⟩ = 300 ∧
    cfgScenario.COLOR_CHANGE_THRESHOLD = 32 ∧
    colorUpdateLoopEmit cfgScenario (some ⟨0, 0, 0⟩) ⟨10, 10, 10⟩ =
      (true, some ⟨10, 10, 10⟩) := by
  refine ⟨by decide, by norm_num [cfgScenario], ?_⟩
  decide

/-- C1 (amended): with threshold 32.0 and previous color (0,0,0), a new
dominant color (10,10,10) computes squared distance 300 and, since
300 ≥ 32, emits and updates the previous color to (10,10,10); a new
dominant color (50,0,0) computes squared distance 2500, emits, and updates
the previous color to (50,0,0). -/
theorem colorUpdateLoop_threshold32_scenario :
    colorDistance ⟨10, 10, 10⟩ ⟨0, 0, 0⟩ = 300 ∧
    colorUpdateLoopEmit cfgScenario (some ⟨0, 0, 0⟩) ⟨10, 10, 10⟩ =
      (true, some ⟨10, 10, 10⟩) ∧
    colorDistance ⟨50, 0, 0⟩ ⟨0, 0, 0⟩ = 2500 ∧
    colorUpdateLoopEmit cfgScenario (some ⟨0, 0, 0⟩) ⟨50, 0, 0⟩ =
      (true, some ⟨50, 0, 0⟩) := by
  refine ⟨by decide, ?_, by decide, ?_⟩ <;> decide

/-- C2: the sync loop's emission decision is insensitive to the configured
change threshold — the loop hard-codes 32.0 and never reads
COLOR_CHANGE_THRESHOLD.  With the threshold configured to 1024, the loop
still emits at squared distance 300 (it compares against 32), while a
comparison against the configured value would not. -/
theorem colorUpdateLoop_ignores_configured_threshold :
    (∀ (cfg : ConfigEnv) (t : ℚ) (prev : Option RGB) (cur : RGB),
        colorUpdateLoopEmit { cfg with COLOR_CHANGE_THRESHOLD := t } prev cur =
          colorUpdateLoopEmit cfg prev cur) ∧
    colorUpdateLoopThreshold cfgThreshold1024 = 32 ∧
    cfgThreshold1024.COLOR_CHANGE_THRESHOLD = 1024 ∧
    (colorUpdateLoopEmit cfgThreshold1024 (some ⟨0, 0, 0⟩) ⟨10, 10, 10⟩).1 = true ∧
    shouldEmit ⟨10, 10, 10⟩ (some ⟨0, 0, 0⟩)
      cfgThreshold1024.COLOR_CHANGE_THRESHOLD = false := by
  refine ⟨fun cfg t prev cur => rfl, rfl,
    by norm_num [cfgThreshold1024, cfgScenario], by decide, by decide⟩

/-- C3: appending to an absent or empty statistics log yields a
one-element array; appending to a file that is not a valid JSON array
(legacy newline-delimited format) keeps every parseable nonblank line as a
prior entry in original order, silently discards unparseable lines, and
places the new entry last.  `pa` and `pl` abstract the external
`encoding/json` array and per-line decoders. -/
theorem logTopColorsJSON_spec (pa : String → Option (List LogEntry))
    (pl : String → Option LogEntry) (data : String) (e : LogEntry)
    (hne : ¬ data.length = 0) (hlegacy : pa data = none) :
    logTopColorsJSONEntries pa pl none e = [e] ∧
    logTopColorsJSONEntries pa pl (some emptyData) e = [e] ∧
    logTopColorsJSONEntries pa pl (some data) e =
      ((data.splitOn newlineSep).filter
        (fun line => !(line.trim.length = 0))).filterMap pl ++ [e] ∧
    (logTopColorsJSONEntries pa pl (some data) e).getLast? = some e := by
  have h3 : logTopColorsJSONEntries pa pl (some data) e =
      ((data.splitOn newlineSep).filter
        (fun line => !(line.trim.length = 0))).filterMap pl ++ [e] := by
    simp [logTopColorsJSONEntries, readLogEntries, hne, hlegacy]
  refine ⟨rfl, ?_, h3, ?_⟩
  · simp [logTopColorsJSONEntries, readLogEntries, emptyData]
  · rw [h3]
    simp

/-- Witness for C3: a legacy file with two parseable lines, one
unparseable line and one blank line migrates both parseable entries in
order and appends the new entry last. -/
theorem logTopColorsJSON_spec_witness :
    (¬ legacyFileData.length = 0 ∧
      parseArrayAlwaysFails legacyFileData = none) ∧
      (logTopColorsJSONEntries parseArrayAlwaysFails parseLineExample none
          newEntryExample = [newEntryExample] ∧
        logTopColorsJSONEntries parseArrayAlwaysFails parseLineExample
          (some emptyData) newEntryExample = [newEntryExample] ∧
        logTopColorsJSONEntries parseArrayAlwaysFails parseLineExample
            (some legacyFileData) newEntryExample =
          ((legacyFileData.splitOn newlineSep).filter
            (fun line => !(line.trim.length = 0))).filterMap parseLineExample ++
            [newEntryExample] ∧
        (logTopColorsJSONEntries parseArrayAlwaysFails parseLineExample
            (some legacyFileData) newEntryExample).getLast? =
          some newEntryExample) :=
  ⟨⟨by decide, rfl⟩,
    logTopColorsJSON_spec parseArrayAlwaysFails parseLineExample
      legacyFileData newEntryExample (by decide) rfl⟩

/-- C4: on any nonempty image, `mostFrequentColor` returns a quantized
bucket of maximal count among the near-black/near-white-filtered pixels;
when that filter removes everything (e.g. an image of only near-black and
near-white pixels) it falls back to the unfiltered quantized histogram and
returns a bucket of maximal count there — so a dominant color always
exists, never an error. -/
theorem mostFrequentColor_spec (img : List RGB) (himg : img ≠ []) :
    (keptPixels img ≠ [] →
      mostFrequentColor img ∈ keptPixels img ∧
      ∀ c ∈ keptPixels img,
        (keptPixels img).count c ≤
          (keptPixels img).count (mostFrequentColor img)) ∧
    (keptPixels img = [] →
      mostFrequentColor img ∈ quantPixels img ∧
      ∀ c ∈ quantPixels img,
        (quantPixels img).count c ≤
          (quantPixels img).count (mostFrequentColor img)) := by
  constructor
  · intro hk
    have hne : histogram (keptPixels img) ≠ [] := histogram_ne_nil hk
    have hmf : mostFrequentColor img =
        (maxColor (histogram (keptPixels img))).1 := by
      simp only [mostFrequentColor]
      rw [if_neg (by simp [List.isEmpty_iff, hne])]
    rw [hmf]
    exact maxColor_histogram_spec _ hk
  · intro hk
    have hq : quantPixels img ≠ [] := by
      intro hmap
      exact himg (List.map_eq_nil_iff.1 hmap)
    have hmf : mostFrequentColor img =
        (maxColor (histogram (quantPixels img))).1 := by
      simp only [mostFrequentColor, hk]
      rfl
    rw [hmf]
    exact maxColor_histogram_spec _ hq

/-- Witness for C4 on a 2-pixel image of one near-black and one near-white
pixel: the filter removes everything and the fallback path still returns a
dominant color. -/
theorem mostFrequentColor_spec_witness :
    (([⟨0, 0, 0⟩, ⟨255, 255, 255⟩] : List RGB) ≠ []) ∧
      ((keptPixels [⟨0, 0, 0⟩, ⟨255, 255, 255⟩] ≠ [] →
        mostFrequentColor [⟨0, 0, 0⟩, ⟨255, 255, 255⟩] ∈
          keptPixels [⟨0, 0, 0⟩, ⟨255, 255, 255⟩] ∧
        ∀ c ∈ keptPixels [⟨0, 0, 0⟩, ⟨255, 255, 255⟩],
          (keptPixels [⟨0, 0, 0⟩, ⟨255, 255, 255⟩]).count c ≤
            (keptPixels [⟨0, 0, 0⟩, ⟨255, 255, 255⟩]).count
              (mostFrequentColor [⟨0, 0, 0⟩, ⟨255, 255, 255⟩])) ∧
      (keptPixels [⟨0, 0, 0⟩, ⟨255, 255, 255⟩] = [] →
        mostFrequentColor [⟨0, 0, 0⟩, ⟨255, 255, 255⟩] ∈
          quantPixels [⟨0, 0, 0⟩, ⟨255, 255, 255⟩] ∧
        ∀ c ∈ quantPixels [⟨0, 0, 0⟩, ⟨255, 255, 255⟩],
          (quantPixels [⟨0, 0, 0⟩, ⟨255, 255, 255⟩]).count c ≤
            (quantPixels [⟨0, 0, 0⟩, ⟨255, 255, 255⟩]).count
              (mostFrequentColor [⟨0, 0, 0⟩, ⟨255, 255, 255⟩]))) :=
  ⟨by decide, mostFrequentColor_spec [⟨0, 0, 0⟩, ⟨255, 255, 255⟩] (by decide)⟩

theorem percent_map_sum (h : Hist) (T : ℚ) :
    (h.map (fun kv => (kv.2 : ℚ) / T * 100)).sum =
      (((h.map Prod.snd).sum : Nat) : ℚ) / T * 100 := by
  induction h with
  | nil => simp
  | cons hd t ih =>
    simp only [List.map_cons, List.sum_cons, ih]
    push_cast
    ring

/-- C6: for every image and every requested size n, `topColors` returns at
most n entries of the full unfiltered quantized histogram, sorted
non-increasing by count, and the per-entry percentages
count / totalPixels × 100 sum to at most 100. -/
theorem topColors_spec (img : List RGB) (n : Nat) :
    (topColors img n).length ≤ n ∧
    (topColors img n).Pairwise (fun a b : RGB × Nat => b.2 ≤ a.2) ∧
    (∀ kv ∈ topColors img n, kv ∈ histogram (quantPixels img)) ∧
    ((topColors img n).map
      (fun kv => (kv.2 : ℚ) / (img.length : ℚ) * 100)).sum ≤ 100 := by
  have hsub : (topColors img n).Sublist
      (sortByCountDesc (histogram (quantPixels img))) :=
    List.take_sublist n _
  have hperm := sortByCountDesc_perm (histogram (quantPixels img))
  refine ⟨?_, ?_, ?_, ?_⟩
  · simp [topColors, List.length_take]
  · exact (pairwise_sortByCountDesc _).sublist hsub
  · intro kv hkv
    exact hperm.mem_iff.1 (hsub.subset hkv)
  · have hcount : ((topColors img n).map Prod.snd).sum ≤ img.length := by
      have h1 := sublist_sum_le _ _ (hsub.map Prod.snd)
      have h2 : ((sortByCountDesc (histogram (quantPixels img))).map Prod.snd).sum
          = ((histogram (quantPixels img)).map Prod.snd).sum :=
        (hperm.map Prod.snd).sum_eq
      have h3 := countSum_histogram (quantPixels img)
      have h4 : (quantPixels img).length = img.length := List.length_map _ _
      omega
    rw [percent_map_sum]
    by_cases himg : img = []
    · subst himg
      simp [topColors, quantPixels, histogram, sortByCountDesc]
    · have hpos : (0 : ℚ) < (img.length : ℚ) := by
        have := List.length_pos.2 himg
        exact_mod_cast this
      have hle : ((((topColors img n).map Prod.snd).sum : Nat) : ℚ) ≤
          (img.length : ℚ) := by
        exact_mod_cast hcount
      have hdiv : ((((topColors img n).map Prod.snd).sum : Nat) : ℚ) /
          (img.length : ℚ) ≤ 1 := by
        rw [div_le_one hpos]
        exact hle
      calc ((((topColors img n).map Prod.snd).sum : Nat) : ℚ) /
            (img.length : ℚ) * 100 ≤ 1 * 100 :=
        mul_le_mul_of_nonneg_right hdiv (by norm_num)
        _ = 100 := by norm_num
